import Mathlib

/-!
Verification development for the DegenPizza v4 zero-sum coordination game
simulator (`src/contracts/REFERENCE.py`).

The Python source is shallowly embedded:
- recipe generation (`generate_recipe`) works with exact rationals; one trial
  of its rejection-sampling loop becomes `generate_recipe_step`, a function of
  the six raw random draws;
- the scoring engine (`compute_quality`, `compute_uniqueness`,
  `compute_contribution`, `compute_scores`) is embedded over the reals
  (idealizing IEEE floats by exact real arithmetic);
- the round state machine (`Game.play_round`) becomes a pure state-passing
  function; Python exceptions (assertion failures, `min([])`) become an
  `Except` result carrying the partially mutated state;
- the AI decision procedure (`ai_strategy`) and the main loop are embedded with
  an explicit pseudorandom stream per player.
-/

namespace DegenPizza

/-- `NUM_INGREDIENTS = 6` from the source. -/
def NUM_INGREDIENTS : ℕ := 6

/-- `UNITS_PER_PLAYER = 5` from the source (integer units per allocation). -/
def UNITS_PER_PLAYER : ℤ := 5

/-- `NUM_ROUNDS = 10` from the source. -/
def NUM_ROUNDS : ℕ := 10

/-- `STARTING_SCORE = 100.0` from the source. -/
noncomputable def STARTING_SCORE : ℝ := 100

/-- `ANTE = 10.0` from the source. -/
noncomputable def ANTE : ℝ := 10

/-- `ALPHA = 1.0`, the default uniqueness exponent from the source. -/
noncomputable def ALPHA : ℝ := 1

/-- `BETA = 0.3`, the default contribution floor from the source. -/
noncomputable def BETA : ℝ := 0.3

/-!
## Recipe generation (`generate_recipe`, source lines 51-102)

Embedded over exact rationals. `pyRound` is Python 3 `round`: round half to
even. One iteration of the `while True` rejection loop becomes
`generate_recipe_step`, a function of the list of raw `random.random()` draws;
`none` means the draw is rejected and the loop retries.
-/

/-- Python 3 `round` on a rational: nearest integer, ties to even. The
fractional part `q - f` is compared with one half through the equivalent
doubled comparisons `2q` versus `2f + 1`. -/
def pyRound (q : ℚ) : ℤ :=
  let f := ⌊q⌋
  if 2 * q < 2 * (f : ℚ) + 1 then f
  else if 2 * (f : ℚ) + 1 < 2 * q then f + 1
  else if f % 2 = 0 then f else f + 1

/-- Insert into a list kept in descending order (helper for `sortDesc`). -/
def insertDesc {α : Type} [LinearOrder α] (x : α) : List α → List α
  | [] => [x]
  | y :: ys => if y < x then x :: y :: ys else y :: insertDesc x ys

/-- Insertion sort into descending order, modelling
`sorted(..., reverse=True)`. -/
def sortDesc {α : Type} [LinearOrder α] : List α → List α
  | [] => []
  | x :: xs => insertDesc x (sortDesc xs)

lemma mem_insertDesc {α : Type} [LinearOrder α] {x a : α} {l : List α} :
    a ∈ insertDesc x l ↔ a = x ∨ a ∈ l := by
  induction l with
  | nil => simp [insertDesc]
  | cons y ys ih =>
    by_cases h : y < x
    · simp [insertDesc, h]
    · simp [insertDesc, h, ih]
      tauto

lemma insertDesc_pairwise {α : Type} [LinearOrder α] {x : α} {l : List α}
    (h : l.Pairwise (· ≥ ·)) : (insertDesc x l).Pairwise (· ≥ ·) := by
  induction l with
  | nil => simp [insertDesc]
  | cons y ys ih =>
    rcases List.pairwise_cons.mp h with ⟨hy, hys⟩
    by_cases hlt : y < x
    · rw [insertDesc, if_pos hlt]
      refine List.pairwise_cons.mpr ⟨?_, h⟩
      intro a ha
      rcases List.mem_cons.mp ha with rfl | ha
      · exact le_of_lt hlt
      · exact le_trans (hy a ha) (le_of_lt hlt)
    · rw [insertDesc, if_neg hlt]
      refine List.pairwise_cons.mpr ⟨?_, ih hys⟩
      intro a ha
      rcases mem_insertDesc.mp ha with rfl | ha
      · exact not_lt.mp hlt
      · exact hy a ha

lemma sortDesc_pairwise {α : Type} [LinearOrder α] (l : List α) :
    (sortDesc l).Pairwise (· ≥ ·) := by
  induction l with
  | nil => simp [sortDesc]
  | cons x xs ih => exact insertDesc_pairwise ih

lemma insertDesc_length {α : Type} [LinearOrder α] (x : α) (l : List α) :
    (insertDesc x l).length = l.length + 1 := by
  induction l with
  | nil => simp [insertDesc]
  | cons y ys ih =>
    by_cases h : y < x <;> simp [insertDesc, h, ih]

lemma sortDesc_length {α : Type} [LinearOrder α] (l : List α) :
    (sortDesc l).length = l.length := by
  induction l with
  | nil => simp [sortDesc]
  | cons x xs ih => simp [sortDesc, insertDesc_length, ih]

/-- The multiples of 20% excluded by the recipe generator. -/
def cleanMultiples : List ℚ := [0.20, 0.40, 0.60, 0.80, 1.00]

/-- One trial of the `generate_recipe` rejection loop (source lines 64-102),
as a function of the six raw `random.random()` draws. `none` models a
rejected draw (the Python loop retries); `some r` is the returned recipe.
Divisions by zero (impossible for actual positive draws) follow the Lean
convention `x / 0 = 0` instead of raising. -/
def generate_recipe_step (raw : List ℚ) : Option (List ℚ) :=
  let rawS := sortDesc raw
  let total := rawS.sum
  let props := rawS.map (fun r => r / total)
  if props.any (fun p => p < 0.05) then none
  else if (props.take 3).sum < 0.40 then none
  else if props.any (fun p => cleanMultiples.any (fun m => |p - m| < 0.005)) then none
  else
    let bps := props.map (fun p => pyRound (p * 10000))
    let diff := 10000 - bps.sum
    let bps2 :=
      match bps with
      | [] => ([] : List ℤ)
      | b :: rest => (b + diff) :: rest
    if bps2 ≠ sortDesc bps2 then none
    else if bps2.any (fun b => b < 500) then none
    else some (bps2.map (fun (b : ℤ) => (b : ℚ) / 10000))

lemma map_div_sum (l : List ℤ) :
    (l.map (fun (b : ℤ) => (b : ℚ) / 10000)).sum = (l.sum : ℚ) / 10000 := by
  induction l with
  | nil => simp
  | cons b t ih =>
    simp only [List.map_cons, List.sum_cons, ih]
    push_cast
    ring

/-- In a descending 6-element list summing to one, the first three entries
carry at least half, hence at least two fifths. -/
lemma top3_ge_of_sorted {l : List ℚ} (h6 : l.length = 6)
    (hp : l.Pairwise (· ≥ ·)) (hs : l.sum = 1) : (2 : ℚ)/5 ≤ (l.take 3).sum := by
  rcases l with _ | ⟨a, l⟩; · simp at h6
  rcases l with _ | ⟨b, l⟩; · simp at h6
  rcases l with _ | ⟨c, l⟩; · simp at h6
  rcases l with _ | ⟨d, l⟩; · simp at h6
  rcases l with _ | ⟨e, l⟩; · simp at h6
  rcases l with _ | ⟨f, l⟩; · simp at h6
  rcases l with _ | ⟨x, l⟩
  · simp only [List.pairwise_cons, List.mem_cons, List.not_mem_nil, or_false,
      List.Pairwise.nil, and_true] at hp
    obtain ⟨ha, hb, hc, -⟩ := hp
    have hac : a ≥ c := ha c (by tauto)
    have hbc : b ≥ c := hb c (by tauto)
    have hcd : c ≥ d := hc d (by tauto)
    have hce : c ≥ e := hc e (by tauto)
    have hcf : c ≥ f := hc f (by tauto)
    simp only [List.sum_cons, List.sum_nil, add_zero] at hs
    simp only [List.take, List.sum_cons, List.sum_nil, add_zero]
    linarith
  · simp at h6

lemma recipe_post_properties {b0 : ℤ} {rest : List ℤ} (h6 : rest.length = 5)
    (hsum : b0 + rest.sum = 10000) (hsorted : (b0 :: rest).Pairwise (· ≥ ·))
    (h500 : ∀ b ∈ b0 :: rest, 500 ≤ b) :
    ((b0 : ℚ)/10000 :: rest.map (fun (b : ℤ) => (b : ℚ) / 10000)).sum = 1 ∧
    ((b0 : ℚ)/10000 :: rest.map (fun (b : ℤ) => (b : ℚ) / 10000)).Pairwise (· ≥ ·) ∧
    (∀ x ∈ (b0 : ℚ)/10000 :: rest.map (fun (b : ℤ) => (b : ℚ) / 10000),
      (1 : ℚ)/20 ≤ x) ∧
    (2 : ℚ)/5 ≤
      (((b0 : ℚ)/10000 :: rest.map (fun (b : ℤ) => (b : ℚ) / 10000)).take 3).sum ∧
    ((b0 : ℚ)/10000 :: rest.map (fun (b : ℤ) => (b : ℚ) / 10000)).length = 6 := by
  have hmap : ((b0 : ℚ)/10000 :: rest.map (fun (b : ℤ) => (b : ℚ) / 10000)) =
      ((b0 :: rest).map (fun (b : ℤ) => (b : ℚ) / 10000)) := rfl
  rw [hmap]
  have hsumz : (b0 :: rest).sum = 10000 := by
    simp only [List.sum_cons]; omega
  have hsum2 : ((b0 :: rest).map (fun (b : ℤ) => (b : ℚ) / 10000)).sum = 1 := by
    rw [map_div_sum, hsumz]; norm_num
  have hpair :
      ((b0 :: rest).map (fun (b : ℤ) => (b : ℚ) / 10000)).Pairwise (· ≥ ·) := by
    refine List.Pairwise.map _ ?_ hsorted
    intro a b hab
    have hq : (b : ℚ) ≤ (a : ℚ) := by exact_mod_cast hab
    have hd : (b : ℚ) / 10000 ≤ (a : ℚ) / 10000 := by linarith
    exact hd
  have hmem : ∀ x ∈ (b0 :: rest).map (fun (b : ℤ) => (b : ℚ) / 10000),
      (1 : ℚ)/20 ≤ x := by
    intro x hx
    rcases List.mem_map.mp hx with ⟨b, hb, rfl⟩
    have hq : (500 : ℚ) ≤ (b : ℚ) := by exact_mod_cast h500 b hb
    have hd : (500 : ℚ) / 10000 ≤ (b : ℚ) / 10000 := by linarith
    linarith
  have hlen : ((b0 :: rest).map (fun (b : ℤ) => (b : ℚ) / 10000)).length = 6 := by
    simp [h6]
  exact ⟨hsum2, hpair, hmem, top3_ge_of_sorted hlen hpair hsum2, hlen⟩

/-- Claim C3 (amended). Every recipe returned by a trial of `generate_recipe`
satisfies, after the basis-point rounding and largest-entry adjustment: the
six proportions sum to exactly 1, are non-increasing, and each is at least
0.05; the top three sum to at least 0.40 (indeed at least one half, which is
automatic for a descending list). The remaining original constraint — no
proportion within 0.005 of a multiple of 0.20 — is checked only before
rounding and can be broken by the adjustment step; see
`recipe_near_multiple_after_rounding`. -/
theorem generated_recipe_properties (raw : List ℚ) (r : List ℚ)
    (hlen : raw.length = 6) (h : generate_recipe_step raw = some r) :
    r.sum = 1 ∧ r.Pairwise (· ≥ ·) ∧ (∀ x ∈ r, (1 : ℚ)/20 ≤ x) ∧
      (2 : ℚ)/5 ≤ (r.take 3).sum ∧ r.length = 6 := by
  have hsl : (sortDesc raw).length = 6 := by rw [sortDesc_length, hlen]
  rcases hsd : sortDesc raw with _ | ⟨s0, st⟩
  · rw [hsd] at hsl; simp at hsl
  rw [hsd] at hsl
  have hst : st.length = 5 := by simpa using hsl
  simp only [generate_recipe_step, hsd, List.map_cons] at h
  split_ifs at h with h1 h2 h3 h4 h5
  rw [not_not] at h4
  injection h with h
  subst h
  apply recipe_post_properties
  · simp [hst]
  · simp only [List.sum_cons]
    ring
  · rw [h4]; exact sortDesc_pairwise _
  · intro b hb
    simp only [List.any_eq_true, decide_eq_true_eq, not_exists, not_and,
      not_lt] at h5
    exact h5 b hb

/-- A concrete draw on which `generate_recipe_step` accepts; the resulting
recipe proportion 0.4049 lies within 0.005 of 0.40 (used for claim C3). -/
def cexRaw : List ℚ := [20252/50000, 7998/50000, 7498/50000, 5998/50000,
  4254/50000, 4000/50000]

/-- A clean accepted draw, reproducing itself as the recipe (all basis-point
values exact, no adjustment needed). -/
def rawOk : List ℚ := [31/100, 24/100, 19/100, 12/100, 8/100, 6/100]

/-- The recipe returned on the draw `rawOk`. -/
def recipeOk : List ℚ := [31/100, 24/100, 19/100, 12/100, 8/100, 6/100]

set_option maxHeartbeats 1000000 in
/-- Counterexample for claim C3 as stated: on the draw `cexRaw` the trial
accepts and returns a recipe whose largest proportion is 0.4049, which lies
within 0.005 of the clean multiple 0.40 — so the multiple-distance constraint
does not survive the basis-point adjustment. -/
theorem recipe_near_multiple_after_rounding :
    generate_recipe_step cexRaw =
      some [4049/10000, 4/25, 3/20, 3/25, 851/10000, 2/25] ∧
    |(4049 : ℚ)/10000 - 0.40| < 0.005 := by
  constructor
  · norm_num [generate_recipe_step, cexRaw, sortDesc, insertDesc, pyRound,
      cleanMultiples, abs_lt, le_abs]
  · rw [abs_lt]; norm_num

set_option maxHeartbeats 1000000 in
/-- Witness for `generated_recipe_properties` at the concrete accepted draw
`rawOk`. -/
theorem generated_recipe_properties_witness :
    generate_recipe_step rawOk = some recipeOk ∧ recipeOk.sum = 1 ∧
      (2 : ℚ)/5 ≤ (recipeOk.take 3).sum := by
  have heval : generate_recipe_step rawOk = some recipeOk := by
    norm_num [generate_recipe_step, rawOk, recipeOk, sortDesc, insertDesc,
      pyRound, cleanMultiples, abs_lt, le_abs]
  have h := generated_recipe_properties rawOk recipeOk (by rfl) heval
  exact ⟨heval, h.1, h.2.2.2.1⟩

/-!
## Scoring engine (`compute_quality` / `compute_uniqueness` /
`compute_contribution` / `compute_scores`, source lines 107-258)

Embedded over the reals, idealizing IEEE doubles by exact real arithmetic.
Python indexing `l[j]` inside the fixed `range(6)` loops is rendered total as
`getD` with default 0; every call site stays within bounds after validation.
An empty `contributions` list makes Python raise `ValueError` at `min(raw)`
inside `compute_contribution`; this is modelled by an `Option` result.
-/

/-- Python `l[j]` on a list of floats (total, default 0). -/
noncomputable def getiR (l : List ℝ) (j : ℕ) : ℝ := l.getD j 0

/-- Python `l[j]` on a list of ints (total, default 0). -/
def getiZ (l : List ℤ) (j : ℕ) : ℤ := l.getD j 0

/-- Python `max(l) if l else dflt`. -/
noncomputable def pymaxD (l : List ℝ) (dflt : ℝ) : ℝ :=
  match l with
  | [] => dflt
  | h :: t => t.foldl max h

open Classical in
/-- `compute_quality(pool, recipe)` (source lines 107-136): 0 when the pool
sums to zero, else `exp(-5 * dist(pool proportions, recipe))`. -/
noncomputable def compute_quality (pool recipe : List ℝ) : ℝ :=
  let pool_total := pool.sum
  if pool_total = 0 then 0
  else
    let proportions := pool.map (fun p => p / pool_total)
    let distance := Real.sqrt (((List.range NUM_INGREDIENTS).map
      (fun j => (getiR proportions j - getiR recipe j) ^ 2)).sum)
    Real.exp (-5 * distance)

open Classical in
/-- `compute_uniqueness(contributions)` (source lines 139-179): per-player
distance to the group average, normalized by the maximum distance. -/
noncomputable def compute_uniqueness (contributions : List (List ℤ)) : List ℝ :=
  let n := contributions.length
  if n ≤ 1 then List.replicate n 0.5
  else
    let avg := (List.range NUM_INGREDIENTS).map
      (fun j => (contributions.map (fun c => ((getiZ c j : ℤ) : ℝ))).sum / (n : ℝ))
    let raw := contributions.map (fun c => Real.sqrt
      (((List.range NUM_INGREDIENTS).map
        (fun j => (((getiZ c j : ℤ) : ℝ) - getiR avg j) ^ 2)).sum))
    let max_raw := pymaxD raw 1
    if max_raw = 0 then List.replicate n 0
    else raw.map (fun r => r / max_raw)

open Classical in
/-- `compute_contribution(contributions, recipe)` (source lines 182-226):
leave-one-out marginal quality, min-max normalized. `none` models the
`ValueError` Python raises at `min([])` when there are no players. -/
noncomputable def compute_contribution (contributions : List (List ℤ))
    (recipe : List ℝ) : Option (List ℝ) :=
  let n := contributions.length
  let pool := (List.range NUM_INGREDIENTS).map
    (fun j => (contributions.map (fun c => ((getiZ c j : ℤ) : ℝ))).sum)
  let q_all := compute_quality pool recipe
  let raw := contributions.map (fun c => q_all - compute_quality
    ((List.range NUM_INGREDIENTS).map
      (fun j => getiR pool j - ((getiZ c j : ℤ) : ℝ))) recipe)
  match raw with
  | [] => none
  | r0 :: rest =>
    let mn := rest.foldl min r0
    let mx := rest.foldl max r0
    if mx = mn then some (List.replicate n 0.5)
    else some ((r0 :: rest).map (fun r => (r - mn) / (mx - mn)))

/-- `compute_scores(contributions, recipe)` (source lines 229-258), with the
global tunables `ALPHA`/`BETA` passed explicitly: returns quality, the
uniqueness and contribution lists, and `score_i = u_i ** alpha * (beta + c_i)`.
-/
noncomputable def compute_scores (alpha beta : ℝ)
    (contributions : List (List ℤ)) (recipe : List ℝ) :
    Option (ℝ × List ℝ × List ℝ × List ℝ) :=
  let pool := (List.range NUM_INGREDIENTS).map
    (fun j => (contributions.map (fun c => ((getiZ c j : ℤ) : ℝ))).sum)
  let quality := compute_quality pool recipe
  let uniqueness := compute_uniqueness contributions
  match compute_contribution contributions recipe with
  | none => none
  | some contribution =>
    let scores := (List.range contributions.length).map
      (fun i => (getiR uniqueness i) ^ alpha * (beta + getiR contribution i))
    some (quality, uniqueness, contribution, scores)

lemma le_foldl_max (t : List ℝ) : ∀ b a : ℝ, a ≤ b ∨ a ∈ t → a ≤ t.foldl max b := by
  induction t with
  | nil =>
    intro b a h
    rcases h with h | h
    · exact h
    · simp at h
  | cons c t ih =>
    intro b a h
    simp only [List.foldl_cons]
    rcases h with h | h
    · exact ih (max b c) a (Or.inl (le_trans h (le_max_left b c)))
    · rcases List.mem_cons.mp h with rfl | h
      · exact ih (max b a) a (Or.inl (le_max_right b a))
      · exact ih (max b c) a (Or.inr h)

lemma foldl_min_le (t : List ℝ) : ∀ b a : ℝ, b ≤ a ∨ a ∈ t → t.foldl min b ≤ a := by
  induction t with
  | nil =>
    intro b a h
    rcases h with h | h
    · exact h
    · simp at h
  | cons c t ih =>
    intro b a h
    simp only [List.foldl_cons]
    rcases h with h | h
    · exact ih (min b c) a (Or.inl (le_trans (min_le_left b c) h))
    · rcases List.mem_cons.mp h with rfl | h
      · exact ih (min b a) a (Or.inl (min_le_right b a))
      · exact ih (min b c) a (Or.inr h)

lemma div_max_map_bounds (x0 : ℝ) (t : List ℝ)
    (hnn : ∀ r ∈ x0 :: t, 0 ≤ r) (hne : t.foldl max x0 ≠ 0) :
    ∀ u ∈ (x0 :: t).map (fun r => r / t.foldl max x0), 0 ≤ u ∧ u ≤ 1 := by
  intro u hu
  rcases List.mem_map.mp hu with ⟨r, hr, rfl⟩
  have hr0 : 0 ≤ r := hnn r hr
  have hrle : r ≤ t.foldl max x0 := by
    refine le_foldl_max t x0 r ?_
    rcases List.mem_cons.mp hr with rfl | h
    · exact Or.inl le_rfl
    · exact Or.inr h
  have hm0 : 0 ≤ t.foldl max x0 := le_trans hr0 hrle
  have hmpos : 0 < t.foldl max x0 := lt_of_le_of_ne hm0 (Ne.symm hne)
  exact ⟨div_nonneg hr0 (le_of_lt hmpos), (div_le_one hmpos).mpr hrle⟩

lemma minmax_map_bounds (r0 : ℝ) (rest : List ℝ)
    (hne : rest.foldl max r0 ≠ rest.foldl min r0) :
    ∀ v ∈ (r0 :: rest).map
      (fun r => (r - rest.foldl min r0) / (rest.foldl max r0 - rest.foldl min r0)),
      0 ≤ v ∧ v ≤ 1 := by
  intro v hv
  rcases List.mem_map.mp hv with ⟨r, hr, rfl⟩
  have hmn : rest.foldl min r0 ≤ r := by
    refine foldl_min_le rest r0 r ?_
    rcases List.mem_cons.mp hr with rfl | h
    · exact Or.inl le_rfl
    · exact Or.inr h
  have hmx : r ≤ rest.foldl max r0 := by
    refine le_foldl_max rest r0 r ?_
    rcases List.mem_cons.mp hr with rfl | h
    · exact Or.inl le_rfl
    · exact Or.inr h
  have hlt : rest.foldl min r0 < rest.foldl max r0 :=
    lt_of_le_of_ne (le_trans hmn hmx) (Ne.symm hne)
  constructor
  · exact div_nonneg (by linarith) (by linarith)
  · rw [div_le_one (by linarith)]
    linarith

/-- Claim C5: `compute_quality` returns 0 exactly when the pool sums to zero,
and otherwise equals `exp(-5 * euclidean distance(pool proportions, recipe))`,
a value in `(0, 1]`; every entry of `compute_uniqueness` lies in `[0, 1]`;
and every entry of a successfully computed `compute_contribution` lies in
`[0, 1]`. -/
theorem scoring_ranges :
    (∀ pool recipe : List ℝ, pool.sum = 0 → compute_quality pool recipe = 0) ∧
    (∀ pool recipe : List ℝ, pool.sum ≠ 0 →
      compute_quality pool recipe =
        Real.exp (-5 * Real.sqrt (((List.range NUM_INGREDIENTS).map
          (fun j => (getiR (pool.map (fun p => p / pool.sum)) j - getiR recipe j) ^ 2)).sum)) ∧
      0 < compute_quality pool recipe ∧ compute_quality pool recipe ≤ 1) ∧
    (∀ contribs : List (List ℤ), ∀ u ∈ compute_uniqueness contribs, 0 ≤ u ∧ u ≤ 1) ∧
    (∀ contribs : List (List ℤ), ∀ recipe : List ℝ, ∀ l : List ℝ,
      compute_contribution contribs recipe = some l → ∀ v ∈ l, 0 ≤ v ∧ v ≤ 1) := by
  refine ⟨?_, ?_, ?_, ?_⟩
  · intro pool recipe h
    simp only [compute_quality, if_pos h]
  · intro pool recipe h
    have heq : compute_quality pool recipe =
        Real.exp (-5 * Real.sqrt (((List.range NUM_INGREDIENTS).map
          (fun j => (getiR (pool.map (fun p => p / pool.sum)) j - getiR recipe j) ^ 2)).sum)) := by
      simp only [compute_quality, if_neg h]
    refine ⟨heq, ?_, ?_⟩
    · rw [heq]; exact Real.exp_pos _
    · rw [heq]
      have hd : 0 ≤ Real.sqrt (((List.range NUM_INGREDIENTS).map
          (fun j => (getiR (pool.map (fun p => p / pool.sum)) j - getiR recipe j) ^ 2)).sum) :=
        Real.sqrt_nonneg _
      calc Real.exp (-5 * Real.sqrt (((List.range NUM_INGREDIENTS).map
            (fun j => (getiR (pool.map (fun p => p / pool.sum)) j - getiR recipe j) ^ 2)).sum))
          ≤ Real.exp 0 := Real.exp_le_exp.mpr (by nlinarith)
        _ = 1 := Real.exp_zero
  · intro contribs u hu
    rcases contribs with _ | ⟨c0, ct⟩
    · simp [compute_uniqueness] at hu
    by_cases hn : (c0 :: ct).length ≤ 1
    · simp only [compute_uniqueness, if_pos hn] at hu
      have := List.eq_of_mem_replicate hu
      subst this
      norm_num
    · simp only [compute_uniqueness, if_neg hn, List.map_cons, pymaxD] at hu
      split_ifs at hu with hmax
      · have := List.eq_of_mem_replicate hu
        subst this
        norm_num
      · refine div_max_map_bounds _ _ ?_ hmax u hu
        intro r hr
        rcases List.mem_cons.mp hr with rfl | hr
        · exact Real.sqrt_nonneg _
        · rcases List.mem_map.mp hr with ⟨c, hc, rfl⟩
          exact Real.sqrt_nonneg _
  · intro contribs recipe l h v hv
    rcases contribs with _ | ⟨c0, ct⟩
    · simp [compute_contribution] at h
    simp only [compute_contribution, List.map_cons] at h
    split_ifs at h with he
    · injection h with h
      subst h
      have := List.eq_of_mem_replicate hv
      subst this
      norm_num
    · injection h with h
      subst h
      exact minmax_map_bounds _ _ he v hv

/-- Witness for `scoring_ranges` at concrete inputs: an all-zero pool gives
quality 0, a nonzero pool gives positive quality, and the single-player
uniqueness value 0.5 is within bounds. -/
theorem scoring_ranges_witness :
    compute_quality [(0 : ℝ), 0, 0, 0, 0, 0] [] = 0 ∧
    0 < compute_quality [(5 : ℝ), 0, 0, 0, 0, 0] [] ∧
    ((0 : ℝ) ≤ 0.5 ∧ (0.5 : ℝ) ≤ 1) := by
  refine ⟨scoring_ranges.1 [0, 0, 0, 0, 0, 0] [] (by norm_num),
    (scoring_ranges.2.1 [(5 : ℝ), 0, 0, 0, 0, 0] [] (by norm_num)).2.1,
    scoring_ranges.2.2.1 [[5, 0, 0, 0, 0, 0]] 0.5 ?_⟩
  simp [compute_uniqueness]

/-!
## Round state machine (`Game` / `play_round`, source lines 263-394)

Balances (`player_scores`) are a total map `String → ℝ`; the Python `set` of
eliminated ids is a duplicate-free-by-insertion list; the ordered
`RoundResult.players` dict is an association list in insertion order; the
`contributions` dict passed to `play_round` is a partial map
`String → Option (List ℤ)`. Python exceptions leave already-performed
mutations in place, so `play_round` returns the (partially) mutated state
together with an `Except` value.
-/

/-- `PlayerRound` dataclass (source lines 263-271). -/
structure PlayerRound where
  ingredients : List ℤ
  uniqueness : ℝ
  contribution : ℝ
  score : ℝ
  payout : ℝ
  net : ℝ

/-- `RoundResult` dataclass (source lines 274-281). -/
structure RoundResult where
  round_num : ℕ
  recipe : List ℝ
  quality : ℝ
  pot : ℝ
  players : List (String × PlayerRound)

/-- `Game` dataclass (source lines 284-298). -/
structure Game where
  player_names : List String
  player_scores : String → ℝ
  current_round : ℕ
  recipe_main : List ℝ
  recipe_final : List ℝ
  history : List RoundResult
  eliminated : List String

/-- `Game.active_players` (source lines 309-312). -/
def active_players (g : Game) : List String :=
  g.player_names.filter (fun p => decide (p ∉ g.eliminated))

/-- `Game.current_recipe` (source lines 314-316). -/
def current_recipe (g : Game) : List ℝ :=
  if g.current_round = NUM_ROUNDS then g.recipe_final else g.recipe_main

/-- The participant list of a settlement (source line 335): active players
that appear in the submitted mapping. -/
def participants (g : Game) (contributions : String → Option (List ℤ)) :
    List String :=
  (active_players g).filter (fun p => (contributions p).isSome)

/-- The three `assert`s of `play_round` (source lines 338-341): the allocation
sums to the 5-unit budget, has no negative entry, and has exactly 6 entries. -/
def validAlloc (a : List ℤ) : Prop :=
  a.sum = UNITS_PER_PLAYER ∧ (∀ u ∈ a, 0 ≤ u) ∧ a.length = NUM_INGREDIENTS

instance (a : List ℤ) : Decidable (validAlloc a) := by
  unfold validAlloc
  infer_instance

/-- The error outcomes of a settlement: a failed allocation `assert`
(`AssertionError`), or the `ValueError` raised by `min([])` inside
`compute_contribution` when there are no participants. -/
inductive RoundError where
  | validation : RoundError
  | emptyRound : RoundError

/-- The ante-collection loop (source lines 344-345). -/
noncomputable def deductAntes (l : List String) (b : String → ℝ) : String → ℝ :=
  l.foldl (fun b p => Function.update b p (b p - ANTE)) b

open Classical in
/-- The payout of the participant at `enumerate` index `idx`
(source lines 361-368): flat split when the total score is zero, otherwise
pro-rata by score. -/
noncomputable def payoutAt (scores : List ℝ) (total pot : ℝ) (nIn : ℕ)
    (idx : ℕ) : ℝ :=
  if total = 0 then pot / (nIn : ℝ) else getiR scores idx / total * pot

open Classical in
/-- The pot-distribution loop of `play_round` (source lines 360-383): walks
the participant list with the `enumerate` index, updating balances, adding
newly broke players to the eliminated set, and accumulating the per-player
records of the `RoundResult`. -/
noncomputable def distribute (allocOf : String → List ℤ)
    (uniq contrib scores : List ℝ) (total pot : ℝ) (nIn : ℕ) :
    ℕ → List String → (String → ℝ) → List String →
    ((String → ℝ) × List String × List (String × PlayerRound))
  | _, [], bal, elim => (bal, elim, [])
  | idx, p :: rest, bal, elim =>
    let payout := payoutAt scores total pot nIn idx
    let pr : PlayerRound :=
      { ingredients := allocOf p, uniqueness := getiR uniq idx,
        contribution := getiR contrib idx, score := getiR scores idx,
        payout := payout, net := payout - ANTE }
    let bal2 := Function.update bal p (bal p + payout)
    let elim2 := if bal2 p < ANTE then elim.insert p else elim
    let res := distribute allocOf uniq contrib scores total pot nIn
      (idx + 1) rest bal2 elim2
    (res.1, res.2.1, (p, pr) :: res.2.2)

/-- The body of `play_round` after validation (source lines 343-386), acting
on the round-incremented state `g1` and the participant list. -/
noncomputable def settle (alpha beta : ℝ) (g1 : Game) (players_in : List String)
    (allocOf : String → List ℤ) : Game × Except RoundError RoundResult :=
  let recipe := current_recipe g1
  let scores1 := deductAntes players_in g1.player_scores
  let pot := ANTE * (players_in.length : ℝ)
  match compute_scores alpha beta (players_in.map allocOf) recipe with
  | none => ({ g1 with player_scores := scores1 }, Except.error RoundError.emptyRound)
  | some (quality, uniqueness, contribution, scores) =>
    let total_score := scores.sum
    let d := distribute allocOf uniqueness contribution scores total_score pot
      players_in.length 0 players_in scores1 g1.eliminated
    let result : RoundResult :=
      { round_num := g1.current_round, recipe := recipe, quality := quality,
        pot := pot, players := d.2.2 }
    ({ g1 with
        player_scores := d.1,
        eliminated := d.2.1,
        history := g1.history ++ [result] }, Except.ok result)

/-- `Game.play_round(contributions)` (source lines 318-386), with the global
tunables passed explicitly. Increments the round counter, validates every
participant's allocation (raising `RoundError.validation` like the Python
`assert`s), then antes, scores, and distributes via `settle`. -/
noncomputable def play_round (alpha beta : ℝ) (g : Game)
    (contributions : String → Option (List ℤ)) :
    Game × Except RoundError RoundResult :=
  let g1 : Game := { g with current_round := g.current_round + 1 }
  let players_in := participants g1 contributions
  let allocOf := fun p => (contributions p).getD []
  if ¬ (∀ p ∈ players_in, validAlloc (allocOf p)) then
    (g1, Except.error RoundError.validation)
  else settle alpha beta g1 players_in allocOf

/-- `Game.is_over` (source lines 388-390). -/
def is_over (g : Game) : Prop :=
  NUM_ROUNDS ≤ g.current_round ∨ (active_players g).length ≤ 1

/-- A sequence of settlements (the state part only). -/
noncomputable def runRounds (alpha beta : ℝ) :
    Game → List (String → Option (List ℤ)) → Game
  | g, [] => g
  | g, c :: cs => runRounds alpha beta (play_round alpha beta g c).1 cs

/-- Total balance over a list of player names. -/
noncomputable def sumOver (names : List String) (b : String → ℝ) : ℝ :=
  (names.map b).sum

/-- Partial sums of `getiR` over a window of indices. -/
noncomputable def getiSumFrom (l : List ℝ) : ℕ → ℕ → ℝ
  | _, 0 => 0
  | idx, k + 1 => getiR l idx + getiSumFrom l (idx + 1) k

/-- Sum of the payouts of `k` consecutive `enumerate` indices. -/
noncomputable def payoutSumFrom (scores : List ℝ) (total pot : ℝ) (nIn : ℕ) :
    ℕ → ℕ → ℝ
  | _, 0 => 0
  | idx, k + 1 => payoutAt scores total pot nIn idx +
      payoutSumFrom scores total pot nIn (idx + 1) k

lemma getiSumFrom_shift (a : ℝ) (l : List ℝ) :
    ∀ k idx, getiSumFrom (a :: l) (idx + 1) k = getiSumFrom l idx k := by
  intro k
  induction k with
  | zero => intro idx; rfl
  | succ k ih =>
    intro idx
    simp only [getiSumFrom]
    rw [ih (idx + 1)]
    congr 1

lemma getiSumFrom_full : ∀ l : List ℝ, getiSumFrom l 0 l.length = l.sum := by
  intro l
  induction l with
  | nil => rfl
  | cons a t ih =>
    simp only [List.length_cons, getiSumFrom, List.sum_cons]
    rw [getiSumFrom_shift a t t.length 0, ih]
    rfl

lemma payoutSumFrom_zero {total : ℝ} (scores : List ℝ) (pot : ℝ) (nIn : ℕ)
    (h : total = 0) :
    ∀ k idx, payoutSumFrom scores total pot nIn idx k = k * (pot / (nIn : ℝ)) := by
  intro k
  induction k with
  | zero => intro idx; simp [payoutSumFrom]
  | succ k ih =>
    intro idx
    simp only [payoutSumFrom, payoutAt, if_pos h]
    rw [ih (idx + 1)]
    push_cast
    ring

lemma payoutSumFrom_nonzero {total : ℝ} (scores : List ℝ) (pot : ℝ) (nIn : ℕ)
    (h : total ≠ 0) :
    ∀ k idx, payoutSumFrom scores total pot nIn idx k =
      getiSumFrom scores idx k / total * pot := by
  intro k
  induction k with
  | zero => intro idx; simp [payoutSumFrom, getiSumFrom]
  | succ k ih =>
    intro idx
    simp only [payoutSumFrom, payoutAt, if_neg h, getiSumFrom]
    rw [ih (idx + 1)]
    field_simp
    ring

lemma sumOver_update {names : List String} {q : String} (hnd : names.Nodup)
    (hq : q ∈ names) (b : String → ℝ) (v : ℝ) :
    sumOver names (Function.update b q v) = sumOver names b - b q + v := by
  induction names with
  | nil => simp at hq
  | cons a t ih =>
    rcases List.nodup_cons.mp hnd with ⟨hat, htnd⟩
    rcases List.mem_cons.mp hq with rfl | hq
    · simp only [sumOver, List.map_cons, List.sum_cons, Function.update_same]
      have ht : t.map (Function.update b q v) = t.map b := by
        apply List.map_congr_left
        intro x hx
        exact Function.update_noteq
          (fun (hxq : x = q) => hat (by rwa [hxq] at hx)) v b
      rw [ht]
      ring
    · simp only [sumOver, List.map_cons, List.sum_cons]
      rw [Function.update_noteq (show a ≠ q from fun h => hat (h ▸ hq))]
      have hrec := ih htnd hq
      simp only [sumOver] at hrec
      rw [hrec]
      ring

lemma deductAntes_cons (a : String) (t : List String) (b : String → ℝ) :
    deductAntes (a :: t) b = deductAntes t (Function.update b a (b a - ANTE)) := rfl

lemma deductAntes_notin : ∀ (l : List String) (b : String → ℝ) {p : String},
    p ∉ l → deductAntes l b p = b p := by
  intro l
  induction l with
  | nil => intro b p _; rfl
  | cons a t ih =>
    intro b p hp
    rw [deductAntes_cons]
    rw [ih _ (fun h => hp (List.mem_cons_of_mem a h))]
    exact Function.update_noteq
      (fun (h : p = a) => hp (by rw [h]; exact List.mem_cons_self a t)) _ b

lemma deductAntes_sumOver {names : List String} (hnd : names.Nodup) :
    ∀ (l : List String) (b : String → ℝ), (∀ p ∈ l, p ∈ names) →
      sumOver names (deductAntes l b) = sumOver names b - ANTE * (l.length : ℝ) := by
  intro l
  induction l with
  | nil => intro b _; simp [deductAntes, sumOver]
  | cons a t ih =>
    intro b hsub
    rw [deductAntes_cons]
    rw [ih _ (fun p hp => hsub p (List.mem_cons_of_mem a hp))]
    rw [sumOver_update hnd (hsub a (List.mem_cons_self a t))]
    rw [List.length_cons]
    push_cast
    ring

section DistributeLemmas

variable (f : String → List ℤ) (u cb s : List ℝ) (total pot : ℝ) (nIn : ℕ)

lemma distribute_fst_notin :
    ∀ (l : List String) (idx : ℕ) (bal : String → ℝ) (elim : List String)
      {p : String}, p ∉ l →
      (distribute f u cb s total pot nIn idx l bal elim).1 p = bal p := by
  intro l
  induction l with
  | nil => intro idx bal elim p _; rfl
  | cons q rest ih =>
    intro idx bal elim p hp
    simp only [distribute]
    rw [ih (idx + 1) _ _ (fun h => hp (List.mem_cons_of_mem q h))]
    exact Function.update_noteq
      (fun (h : p = q) => hp (by rw [h]; exact List.mem_cons_self q rest)) _ bal

lemma distribute_elim_mono :
    ∀ (l : List String) (idx : ℕ) (bal : String → ℝ) (elim : List String)
      {e : String}, e ∈ elim →
      e ∈ (distribute f u cb s total pot nIn idx l bal elim).2.1 := by
  intro l
  induction l with
  | nil => intro idx bal elim e he; exact he
  | cons q rest ih =>
    intro idx bal elim e he
    simp only [distribute]
    refine ih (idx + 1) _ _ ?_
    split_ifs with hc
    · exact List.mem_insert_of_mem he
    · exact he

lemma distribute_recs_fst :
    ∀ (l : List String) (idx : ℕ) (bal : String → ℝ) (elim : List String),
      ((distribute f u cb s total pot nIn idx l bal elim).2.2).map Prod.fst = l := by
  intro l
  induction l with
  | nil => intro idx bal elim; rfl
  | cons q rest ih =>
    intro idx bal elim
    simp only [distribute, List.map_cons]
    rw [ih (idx + 1)]

lemma distribute_payout_sum :
    ∀ (l : List String) (idx : ℕ) (bal : String → ℝ) (elim : List String),
      (((distribute f u cb s total pot nIn idx l bal elim).2.2).map
        (fun x => x.2.payout)).sum = payoutSumFrom s total pot nIn idx l.length := by
  intro l
  induction l with
  | nil => intro idx bal elim; simp [distribute, payoutSumFrom]
  | cons q rest ih =>
    intro idx bal elim
    simp only [distribute, List.map_cons, List.sum_cons, List.length_cons,
      payoutSumFrom]
    rw [ih (idx + 1)]

lemma distribute_sumOver {names : List String} (hnd : names.Nodup) :
    ∀ (l : List String) (idx : ℕ) (bal : String → ℝ) (elim : List String),
      (∀ p ∈ l, p ∈ names) →
      sumOver names ((distribute f u cb s total pot nIn idx l bal elim).1) =
        sumOver names bal + payoutSumFrom s total pot nIn idx l.length := by
  intro l
  induction l with
  | nil => intro idx bal elim _; simp [distribute, payoutSumFrom]
  | cons q rest ih =>
    intro idx bal elim hsub
    simp only [distribute, List.length_cons, payoutSumFrom]
    rw [ih (idx + 1) _ _ (fun p hp => hsub p (List.mem_cons_of_mem q hp))]
    rw [sumOver_update hnd (hsub q (List.mem_cons_self q rest))]
    ring

lemma distribute_recs_mem :
    ∀ (l : List String) (idx : ℕ) (bal : String → ℝ) (elim : List String),
      ∀ x ∈ (distribute f u cb s total pot nIn idx l bal elim).2.2,
      x.1 ∈ l ∧ ∃ i, x.2.payout = payoutAt s total pot nIn i ∧
        x.2.net = payoutAt s total pot nIn i - ANTE ∧
        x.2.score = getiR s i ∧ x.2.uniqueness = getiR u i ∧
        x.2.contribution = getiR cb i ∧ x.2.ingredients = f x.1 := by
  intro l
  induction l with
  | nil => intro idx bal elim x hx; simp [distribute] at hx
  | cons q rest ih =>
    intro idx bal elim x hx
    simp only [distribute, List.mem_cons] at hx
    rcases hx with rfl | hx
    · exact ⟨List.mem_cons_self q rest, idx, rfl, rfl, rfl, rfl, rfl, rfl⟩
    · rcases ih (idx + 1) _ _ x hx with ⟨h1, h2⟩
      exact ⟨List.mem_cons_of_mem q h1, h2⟩

end DistributeLemmas

lemma compute_contribution_none_iff (cl : List (List ℤ)) (recipe : List ℝ) :
    compute_contribution cl recipe = none ↔ cl = [] := by
  cases cl with
  | nil => simp [compute_contribution]
  | cons c0 ct =>
    simp only [compute_contribution, List.map_cons]
    split_ifs <;> simp

lemma compute_scores_none_iff (alpha beta : ℝ) (cl : List (List ℤ))
    (recipe : List ℝ) :
    compute_scores alpha beta cl recipe = none ↔ cl = [] := by
  simp only [compute_scores]
  cases hc : compute_contribution cl recipe with
  | none =>
    simp [(compute_contribution_none_iff cl recipe).mp hc]
  | some cb =>
    constructor
    · intro h
      simp at h
    · intro h
      subst h
      rw [(compute_contribution_none_iff [] recipe).mpr rfl] at hc
      cases hc

lemma compute_scores_some_char {alpha beta : ℝ} {cl : List (List ℤ)}
    {recipe : List ℝ} {q : ℝ} {u cb s : List ℝ}
    (h : compute_scores alpha beta cl recipe = some (q, u, cb, s)) :
    u = compute_uniqueness cl ∧ compute_contribution cl recipe = some cb ∧
    s = (List.range cl.length).map
      (fun i => (getiR u i) ^ alpha * (beta + getiR cb i)) ∧
    s.length = cl.length := by
  simp only [compute_scores] at h
  cases hc : compute_contribution cl recipe with
  | none =>
    rw [hc] at h
    simp at h
  | some cb2 =>
    rw [hc] at h
    simp only [Option.some.injEq, Prod.mk.injEq] at h
    obtain ⟨-, hu, hcb, hs⟩ := h
    subst hu
    subst hcb
    subst hs
    exact ⟨rfl, rfl, rfl, by simp⟩

/-- The `distribute` call made by `settle` (abbreviation for the lemmas). -/
noncomputable def settleDist (g1 : Game) (l : List String)
    (f : String → List ℤ) (u cb s : List ℝ) :
    ((String → ℝ) × List String × List (String × PlayerRound)) :=
  distribute f u cb s s.sum (ANTE * (l.length : ℝ)) l.length 0 l
    (deductAntes l g1.player_scores) g1.eliminated

/-- The `RoundResult` produced by a successful `settle`. -/
noncomputable def settleResult (g1 : Game) (l : List String)
    (f : String → List ℤ) (q : ℝ) (u cb s : List ℝ) : RoundResult :=
  { round_num := g1.current_round, recipe := current_recipe g1, quality := q,
    pot := ANTE * (l.length : ℝ), players := (settleDist g1 l f u cb s).2.2 }

lemma settle_ok_eq {alpha beta : ℝ} {g1 : Game} {l : List String}
    {f : String → List ℤ} {q : ℝ} {u cb s : List ℝ}
    (hcs : compute_scores alpha beta (l.map f) (current_recipe g1) =
      some (q, u, cb, s)) :
    settle alpha beta g1 l f =
      ({ g1 with
          player_scores := (settleDist g1 l f u cb s).1,
          eliminated := (settleDist g1 l f u cb s).2.1,
          history := g1.history ++ [settleResult g1 l f q u cb s] },
        Except.ok (settleResult g1 l f q u cb s)) := by
  simp only [settle, settleDist, settleResult]
  rw [hcs]

lemma settle_err_eq {alpha beta : ℝ} {g1 : Game} {l : List String}
    {f : String → List ℤ}
    (hcs : compute_scores alpha beta (l.map f) (current_recipe g1) = none) :
    settle alpha beta g1 l f =
      ({ g1 with player_scores := deductAntes l g1.player_scores },
        Except.error RoundError.emptyRound) := by
  simp only [settle]
  rw [hcs]

lemma play_round_def (alpha beta : ℝ) (g : Game)
    (c : String → Option (List ℤ)) :
    play_round alpha beta g c =
      if ¬ (∀ p ∈ participants g c, validAlloc ((c p).getD [])) then
        ({ g with current_round := g.current_round + 1 },
          Except.error RoundError.validation)
      else
        settle alpha beta { g with current_round := g.current_round + 1 }
          (participants g c) (fun p => (c p).getD []) := rfl

lemma participants_sub_names (g : Game) (c : String → Option (List ℤ)) :
    ∀ p ∈ participants g c, p ∈ g.player_names := by
  intro p hp
  simp only [participants, active_players, List.mem_filter] at hp
  exact hp.1.1

lemma participants_nodup {g : Game} (hnd : g.player_names.Nodup)
    (c : String → Option (List ℤ)) : (participants g c).Nodup :=
  ((hnd.filter _).filter _)

lemma mem_participants {g : Game} {c : String → Option (List ℤ)} {p : String} :
    p ∈ participants g c ↔
      p ∈ g.player_names ∧ p ∉ g.eliminated ∧ (c p).isSome := by
  simp only [participants, active_players, List.mem_filter,
    decide_eq_true_eq, and_assoc]

lemma settle_ne_validation (alpha beta : ℝ) (g1 : Game) (l : List String)
    (f : String → List ℤ) :
    (settle alpha beta g1 l f).2 ≠ Except.error RoundError.validation := by
  intro h
  cases hcs : compute_scores alpha beta (l.map f) (current_recipe g1) with
  | none =>
    rw [settle_err_eq hcs] at h
    exact RoundError.noConfusion (Except.error.inj h)
  | some t =>
    obtain ⟨q, u, cb, s⟩ := t
    rw [settle_ok_eq hcs] at h
    exact Except.noConfusion h

lemma play_round_ok_parts {alpha beta : ℝ} {g : Game}
    {c : String → Option (List ℤ)} {r : RoundResult}
    (hok : (play_round alpha beta g c).2 = Except.ok r) :
    (∀ p ∈ participants g c, validAlloc ((c p).getD [])) ∧
    ∃ q u cb s,
      compute_scores alpha beta
          ((participants g c).map (fun p => (c p).getD []))
          (current_recipe { g with current_round := g.current_round + 1 }) =
        some (q, u, cb, s) ∧
      r = settleResult { g with current_round := g.current_round + 1 }
            (participants g c) (fun p => (c p).getD []) q u cb s ∧
      (play_round alpha beta g c).1 =
        { g with
            current_round := g.current_round + 1,
            player_scores := (settleDist
              { g with current_round := g.current_round + 1 }
              (participants g c) (fun p => (c p).getD []) u cb s).1,
            eliminated := (settleDist
              { g with current_round := g.current_round + 1 }
              (participants g c) (fun p => (c p).getD []) u cb s).2.1,
            history := g.history ++ [r] } := by
  rw [play_round_def] at hok
  by_cases hv : ∀ p ∈ participants g c, validAlloc ((c p).getD [])
  · rw [if_neg (not_not_intro hv)] at hok
    cases hcs : compute_scores alpha beta
        ((participants g c).map (fun p => (c p).getD []))
        (current_recipe { g with current_round := g.current_round + 1 }) with
    | none =>
      rw [settle_err_eq hcs] at hok
      exact absurd hok (by simp)
    | some t =>
      obtain ⟨q, u, cb, s⟩ := t
      rw [settle_ok_eq hcs] at hok
      have hr : r = settleResult { g with current_round := g.current_round + 1 }
          (participants g c) (fun p => (c p).getD []) q u cb s :=
        (Except.ok.inj hok).symm
      refine ⟨hv, q, u, cb, s, rfl, hr, ?_⟩
      rw [play_round_def, if_neg (not_not_intro hv), settle_ok_eq hcs, hr]
  · rw [if_pos hv] at hok
    exact absurd hok (by simp)

lemma payoutSumFrom_total {s : List ℝ} {n : ℕ} (hn : n ≠ 0)
    (hs : s.length = n) (pot : ℝ) :
    payoutSumFrom s s.sum pot n 0 n = pot := by
  by_cases ht : s.sum = 0
  · rw [payoutSumFrom_zero _ _ _ ht]
    have hnr : (n : ℝ) ≠ 0 := Nat.cast_ne_zero.mpr hn
    field_simp
  · rw [payoutSumFrom_nonzero _ _ _ ht]
    rw [← hs, getiSumFrom_full]
    field_simp

lemma participants_nonempty_of_ok {alpha beta : ℝ} {g : Game}
    {c : String → Option (List ℤ)} {q : ℝ} {u cb s : List ℝ}
    (hcs : compute_scores alpha beta
        ((participants g c).map (fun p => (c p).getD []))
        (current_recipe { g with current_round := g.current_round + 1 }) =
      some (q, u, cb, s)) :
    participants g c ≠ [] := by
  intro h0
  rw [h0] at hcs
  simp only [List.map_nil] at hcs
  rw [(compute_scores_none_iff alpha beta _ _).mpr rfl] at hcs
  cases hcs

/-- Claim C1: a successful settlement has pot equal to the ante times the
participant count, credits payouts summing exactly to the pot, and leaves the
total balance over all (distinct) players unchanged — the zero-sum
conservation invariant, for every round of any game. -/
theorem settlement_conservation (alpha beta : ℝ) (g : Game)
    (c : String → Option (List ℤ)) (hnd : g.player_names.Nodup)
    (r : RoundResult) (hok : (play_round alpha beta g c).2 = Except.ok r) :
    r.pot = ANTE * ((participants g c).length : ℝ) ∧
    (r.players.map (fun x => x.2.payout)).sum = r.pot ∧
    sumOver g.player_names ((play_round alpha beta g c).1.player_scores) =
      sumOver g.player_names g.player_scores := by
  obtain ⟨hv, q, u, cb, s, hcs, hr, hg⟩ := play_round_ok_parts hok
  obtain ⟨hu, hcb, hsdef, hslen⟩ := compute_scores_some_char hcs
  have hne : participants g c ≠ [] := participants_nonempty_of_ok hcs
  have hn0 : (participants g c).length ≠ 0 :=
    fun h => hne (List.length_eq_zero.mp h)
  have hslen2 : s.length = (participants g c).length := by
    rw [hslen, List.length_map]
  have hpay : payoutSumFrom s s.sum (ANTE * ((participants g c).length : ℝ))
      (participants g c).length 0 (participants g c).length =
      ANTE * ((participants g c).length : ℝ) :=
    payoutSumFrom_total hn0 hslen2 _
  refine ⟨?_, ?_, ?_⟩
  · rw [hr]
    rfl
  · rw [hr]
    show (((settleDist { g with current_round := g.current_round + 1 }
        (participants g c) (fun p => (c p).getD []) u cb s).2.2).map
        (fun x => x.2.payout)).sum = _
    simp only [settleDist]
    rw [distribute_payout_sum]
    rw [hpay]
    rfl
  · rw [hg]
    show sumOver g.player_names ((settleDist
        { g with current_round := g.current_round + 1 }
        (participants g c) (fun p => (c p).getD []) u cb s).1) = _
    simp only [settleDist]
    rw [distribute_sumOver _ _ _ _ _ _ _ hnd _ _ _ _
      (participants_sub_names g c)]
    rw [hpay]
    have hd : sumOver g.player_names
        (deductAntes (participants g c) g.player_scores) =
        sumOver g.player_names g.player_scores -
          ANTE * ((participants g c).length : ℝ) :=
      deductAntes_sumOver hnd _ _ (participants_sub_names g c)
    rw [hd]
    ring

lemma play_round_validation_iff (alpha beta : ℝ) (g : Game)
    (c : String → Option (List ℤ)) :
    (play_round alpha beta g c).2 = Except.error RoundError.validation ↔
      ¬ (∀ p ∈ participants g c, validAlloc ((c p).getD [])) := by
  rw [play_round_def]
  by_cases hv : ¬ (∀ p ∈ participants g c, validAlloc ((c p).getD []))
  · rw [if_pos hv]
    simp [hv]
  · rw [if_neg hv]
    constructor
    · intro h
      exact absurd h (settle_ne_validation alpha beta _ _ _)
    · intro h
      exact absurd h hv

lemma play_round_validation_state {alpha beta : ℝ} {g : Game}
    {c : String → Option (List ℤ)}
    (h : (play_round alpha beta g c).2 = Except.error RoundError.validation) :
    (play_round alpha beta g c).1 =
      { g with current_round := g.current_round + 1 } := by
  rw [play_round_def] at h ⊢
  by_cases hv : ¬ (∀ p ∈ participants g c, validAlloc ((c p).getD []))
  · rw [if_pos hv]
  · rw [if_neg hv] at h
    exact absurd h (settle_ne_validation alpha beta _ _ _)

/-- Claim C4: `play_round` raises a validation error exactly when some
participant's allocation violates the sum-5 / non-negative / length-6 checks;
and when it raises, no balance is changed and no round record is appended. -/
theorem validation_error_iff (alpha beta : ℝ) (g : Game)
    (c : String → Option (List ℤ)) :
    ((play_round alpha beta g c).2 = Except.error RoundError.validation ↔
      ∃ p ∈ participants g c, ¬ validAlloc ((c p).getD [])) ∧
    ((play_round alpha beta g c).2 = Except.error RoundError.validation →
      (play_round alpha beta g c).1.player_scores = g.player_scores ∧
      (play_round alpha beta g c).1.history = g.history) := by
  constructor
  · rw [play_round_validation_iff]
    constructor
    · intro h
      push_neg at h
      exact h
    · intro h
      push_neg
      exact h
  · intro h
    rw [play_round_validation_state h]
    exact ⟨rfl, rfl⟩

/-- Claim C9: on a validation failure the balances, history and eliminated
set are untouched, but the round counter has already been incremented — the
state is not fully unchanged on error. -/
theorem validation_error_partial_state (alpha beta : ℝ) (g : Game)
    (c : String → Option (List ℤ))
    (h : (play_round alpha beta g c).2 = Except.error RoundError.validation) :
    (play_round alpha beta g c).1.player_scores = g.player_scores ∧
    (play_round alpha beta g c).1.history = g.history ∧
    (play_round alpha beta g c).1.eliminated = g.eliminated ∧
    (play_round alpha beta g c).1.current_round = g.current_round + 1 ∧
    (play_round alpha beta g c).1.current_round ≠ g.current_round := by
  rw [play_round_validation_state h]
  refine ⟨rfl, rfl, rfl, rfl, ?_⟩
  simp

lemma settle_frame {alpha beta : ℝ} {g1 : Game} {l : List String}
    {f : String → List ℤ} {p : String} (hp : p ∉ l) :
    (settle alpha beta g1 l f).1.player_scores p = g1.player_scores p := by
  cases hcs : compute_scores alpha beta (l.map f) (current_recipe g1) with
  | none =>
    rw [settle_err_eq hcs]
    exact deductAntes_notin l _ hp
  | some t =>
    obtain ⟨q, u, cb, s⟩ := t
    rw [settle_ok_eq hcs]
    show (settleDist g1 l f u cb s).1 p = g1.player_scores p
    simp only [settleDist]
    exact (distribute_fst_notin _ _ _ _ _ _ _ _ _ _ _ hp).trans
      (deductAntes_notin l _ hp)

lemma play_round_frame {alpha beta : ℝ} {g : Game}
    {c : String → Option (List ℤ)} {p : String}
    (hp : p ∉ participants g c) :
    (play_round alpha beta g c).1.player_scores p = g.player_scores p := by
  rw [play_round_def]
  by_cases hv : ¬ (∀ q ∈ participants g c, validAlloc ((c q).getD []))
  · rw [if_pos hv]
  · rw [if_neg hv]
    exact settle_frame hp

/-- Claim C10: the participant set of a settlement is exactly the
non-eliminated players appearing in the submitted mapping, and the balance of
every non-participant (eliminated, unknown, or simply absent from the
mapping) is unchanged by the call. -/
theorem participants_characterization (alpha beta : ℝ) (g : Game)
    (c : String → Option (List ℤ)) :
    (∀ p, p ∈ participants g c ↔
      p ∈ g.player_names ∧ p ∉ g.eliminated ∧ (c p).isSome) ∧
    (∀ p, p ∉ participants g c →
      (play_round alpha beta g c).1.player_scores p = g.player_scores p) := by
  exact ⟨fun p => mem_participants, fun p hp => play_round_frame hp⟩

lemma play_round_elim_mono {alpha beta : ℝ} {g : Game}
    {c : String → Option (List ℤ)} {e : String} (he : e ∈ g.eliminated) :
    e ∈ (play_round alpha beta g c).1.eliminated := by
  rw [play_round_def]
  by_cases hv : ¬ (∀ p ∈ participants g c, validAlloc ((c p).getD []))
  · rw [if_pos hv]
    exact he
  · rw [if_neg hv]
    cases hcs : compute_scores alpha beta
        ((participants g c).map (fun p => (c p).getD []))
        (current_recipe { g with current_round := g.current_round + 1 }) with
    | none =>
      rw [settle_err_eq hcs]
      exact he
    | some t =>
      obtain ⟨q, u, cb, s⟩ := t
      rw [settle_ok_eq hcs]
      show e ∈ (settleDist { g with current_round := g.current_round + 1 }
        (participants g c) (fun p => (c p).getD []) u cb s).2.1
      simp only [settleDist]
      exact distribute_elim_mono _ _ _ _ _ _ _ _ _ _ _ he

lemma eliminated_notin_participants {g : Game}
    {c : String → Option (List ℤ)} {e : String} (he : e ∈ g.eliminated) :
    e ∉ participants g c :=
  fun h => (mem_participants.mp h).2.1 he

lemma play_round_balance_eliminated {alpha beta : ℝ} {g : Game}
    {c : String → Option (List ℤ)} {e : String} (he : e ∈ g.eliminated) :
    (play_round alpha beta g c).1.player_scores e = g.player_scores e :=
  play_round_frame (eliminated_notin_participants he)

/-- Claim C8: once a player is in the eliminated set it stays eliminated
across any sequence of settlements, is absent from the active-player set and
from every participant set (so pays no ante and receives no payout), and its
balance never changes again. -/
theorem elimination_monotone (alpha beta : ℝ) (g : Game)
    (cs : List (String → Option (List ℤ))) (e : String)
    (he : e ∈ g.eliminated) :
    e ∈ (runRounds alpha beta g cs).eliminated ∧
    (runRounds alpha beta g cs).player_scores e = g.player_scores e ∧
    e ∉ active_players g ∧ (∀ c, e ∉ participants g c) := by
  have main : ∀ (cs2 : List (String → Option (List ℤ))) (g2 : Game),
      e ∈ g2.eliminated →
      e ∈ (runRounds alpha beta g2 cs2).eliminated ∧
      (runRounds alpha beta g2 cs2).player_scores e = g2.player_scores e := by
    intro cs2
    induction cs2 with
    | nil => intro g2 hg; exact ⟨hg, rfl⟩
    | cons c2 ct ih =>
      intro g2 hg
      simp only [runRounds]
      obtain ⟨ha, hb⟩ := ih _ (play_round_elim_mono hg)
      exact ⟨ha, hb.trans (play_round_balance_eliminated hg)⟩
  obtain ⟨h1, h2⟩ := main cs g he
  refine ⟨h1, h2, ?_, fun c => eliminated_notin_participants he⟩
  intro hact
  simp only [active_players, List.mem_filter, decide_eq_true_eq] at hact
  exact hact.2 he

lemma getiR_map_range {f : ℕ → ℝ} {k j : ℕ} (h : j < k) :
    getiR ((List.range k).map f) j = f j := by
  rw [getiR, List.getD_eq_getElem?_getD, List.getElem?_map, List.getElem?_range h]
  rfl

lemma getiR_ge_length {l : List ℝ} {j : ℕ} (h : l.length ≤ j) : getiR l j = 0 := by
  simp [getiR, List.getD_eq_getElem?_getD, List.getElem?_eq_none h]

lemma getiR_mem {l : List ℝ} {i : ℕ} (h : i < l.length) : getiR l i ∈ l := by
  simp only [getiR, List.getD_eq_getElem?_getD, List.getElem?_eq_getElem h,
    Option.getD_some]
  exact List.getElem_mem h

lemma getiR_replicate_zero (n i : ℕ) : getiR (List.replicate n (0 : ℝ)) i = 0 := by
  by_cases h : i < n
  · simp [getiR, List.getD_eq_getElem?_getD, List.getElem?_replicate, h]
  · refine getiR_ge_length ?_
    rw [List.length_replicate]
    omega

lemma sum_range_sq_self (v : ℕ → ℝ) (k : ℕ) :
    ((List.range k).map
      (fun j => (v j - getiR ((List.range k).map v) j) ^ 2)).sum = 0 := by
  apply List.sum_eq_zero
  intro y hy
  rcases List.mem_map.mp hy with ⟨j, hj, rfl⟩
  rw [getiR_map_range (List.mem_range.mp hj)]
  ring

lemma foldl_max_replicate_zero : ∀ m : ℕ,
    (List.replicate m (0 : ℝ)).foldl max 0 = 0 := by
  intro m
  induction m with
  | zero => rfl
  | succ m ih =>
    rw [List.replicate_succ, List.foldl_cons, max_self]
    exact ih

lemma pymaxD_replicate_zero {n : ℕ} (hn : n ≠ 0) (d : ℝ) :
    pymaxD (List.replicate n (0 : ℝ)) d = 0 := by
  rcases n with _ | m
  · exact absurd rfl hn
  · rw [List.replicate_succ]
    simp only [pymaxD]
    exact foldl_max_replicate_zero m

lemma compute_uniqueness_replicate {n : ℕ} (hn : 2 ≤ n) (a : List ℤ) :
    compute_uniqueness (List.replicate n a) = List.replicate n 0 := by
  have hnr : (n : ℝ) ≠ 0 := Nat.cast_ne_zero.mpr (by omega)
  have hn1 : ¬ ((List.replicate n a).length ≤ 1) := by
    rw [List.length_replicate]; omega
  rw [compute_uniqueness, if_neg hn1]
  simp only [List.length_replicate, List.map_replicate, List.sum_replicate,
    nsmul_eq_mul, mul_div_cancel_left₀ _ hnr]
  rw [sum_range_sq_self, Real.sqrt_zero]
  rw [if_pos (pymaxD_replicate_zero (by omega) 1)]

/-- Claim C2: when at least two participants all submit the identical valid
allocation, uniqueness is 0 for every player, every score is 0 (for any
nonzero scoring exponent, which covers every configuration the source ships),
and the settlement splits the pot exactly equally, giving every participant a
net of exactly 0. -/
theorem identical_allocations_flat_split (alpha beta : ℝ) (g : Game)
    (c : String → Option (List ℤ)) (a : List ℤ) (hα : alpha ≠ 0)
    (hn : 2 ≤ (participants g c).length)
    (hsame : ∀ p ∈ participants g c, c p = some a) (hvalid : validAlloc a) :
    compute_uniqueness ((participants g c).map (fun p => (c p).getD [])) =
      List.replicate (participants g c).length 0 ∧
    ∃ r, (play_round alpha beta g c).2 = Except.ok r ∧
      r.pot = ANTE * ((participants g c).length : ℝ) ∧
      ∀ x ∈ r.players, x.2.score = 0 ∧
        x.2.payout = r.pot / ((participants g c).length : ℝ) ∧ x.2.net = 0 := by
  have hcl : (participants g c).map (fun p => (c p).getD []) =
      List.replicate (participants g c).length a := by
    have h2 : ∀ p ∈ participants g c, ((c p).getD []) = a := by
      intro p hp
      rw [hsame p hp]
      rfl
    calc (participants g c).map (fun p => (c p).getD [])
        = (participants g c).map (fun _ => a) := List.map_congr_left h2
      _ = List.replicate (participants g c).length a := by
          simp
  have huniq : compute_uniqueness
      ((participants g c).map (fun p => (c p).getD [])) =
      List.replicate (participants g c).length 0 := by
    rw [hcl]
    exact compute_uniqueness_replicate hn a
  refine ⟨huniq, ?_⟩
  have hval : ∀ p ∈ participants g c, validAlloc ((c p).getD []) := by
    intro p hp
    rw [hsame p hp]
    exact hvalid
  cases hcs : compute_scores alpha beta
      ((participants g c).map (fun p => (c p).getD []))
      (current_recipe { g with current_round := g.current_round + 1 }) with
  | none =>
    exfalso
    rw [compute_scores_none_iff] at hcs
    have hlen := congrArg List.length hcs
    rw [List.length_map, List.length_nil] at hlen
    omega
  | some t =>
    obtain ⟨q, u, cb, s⟩ := t
    refine ⟨settleResult { g with current_round := g.current_round + 1 }
      (participants g c) (fun p => (c p).getD []) q u cb s, ?_, rfl, ?_⟩
    · rw [play_round_def, if_neg (not_not_intro hval), settle_ok_eq hcs]
    · obtain ⟨hu, hcb, hsdef, hslen⟩ := compute_scores_some_char hcs
      have hurep : u = List.replicate (participants g c).length 0 :=
        hu.trans huniq
      have hsz : ∀ x ∈ s, x = 0 := by
        intro x hx
        rw [hsdef] at hx
        rcases List.mem_map.mp hx with ⟨i, hi, rfl⟩
        rw [hurep, getiR_replicate_zero, Real.zero_rpow hα, zero_mul]
      have htot : s.sum = 0 := List.sum_eq_zero hsz
      have hsi : ∀ i, getiR s i = 0 := by
        intro i
        by_cases hi : i < s.length
        · exact hsz _ (getiR_mem hi)
        · exact getiR_ge_length (le_of_not_lt hi)
      intro x hx
      have hx2 : x ∈ (settleDist { g with current_round := g.current_round + 1 }
          (participants g c) (fun p => (c p).getD []) u cb s).2.2 := hx
      simp only [settleDist] at hx2
      obtain ⟨hmem, i, hpay, hnet, hsc, hun, hcbx, hing⟩ :=
        distribute_recs_mem _ _ _ _ _ _ _ _ _ _ _ x hx2
      have hn0 : ((participants g c).length : ℝ) ≠ 0 := by
        have hne : (participants g c).length ≠ 0 := by omega
        exact_mod_cast hne
      have hpayv : payoutAt s s.sum
          (ANTE * ((participants g c).length : ℝ))
          (participants g c).length i =
          ANTE * ((participants g c).length : ℝ) /
            ((participants g c).length : ℝ) := by
        rw [payoutAt, if_pos htot]
      refine ⟨?_, ?_, ?_⟩
      · rw [hsc, hsi]
      · rw [hpay, hpayv]
        rfl
      · rw [hnet, hpayv, mul_div_assoc, div_self hn0, mul_one, sub_self]

/-!
## The two-player example scenario (claim C7)

Player A submits `[3,1,1,0,0,0]`, player B submits `[0,0,0,0,0,5]`, recipe
`[0.30, 0.25, 0.20, 0.13, 0.07, 0.05]`, budget 5. With two players both raw
distances to the group average are `|A - B| / 2`, so both normalized
uniqueness values are 1 — A's uniqueness is not higher than B's (the example
in the specification is wrong on that point); A's contribution, and the signs
of the nets, behave as stated.
-/

/-- Player A's allocation in the example scenario. -/
def allocA : List ℤ := [3, 1, 1, 0, 0, 0]

/-- Player B's allocation in the example scenario. -/
def allocB : List ℤ := [0, 0, 0, 0, 0, 5]

/-- The example scenario's recipe. -/
noncomputable def recipe7 : List ℝ := [0.30, 0.25, 0.20, 0.13, 0.07, 0.05]

lemma uniq7 : compute_uniqueness [allocA, allocB] = [1, 1] := by
  simp only [compute_uniqueness, allocA, allocB, List.length_cons,
    List.length_nil]
  rw [if_neg (by norm_num)]
  norm_num [NUM_INGREDIENTS, List.range_succ, getiZ, getiR, pymaxD]

lemma quality_lt7 : compute_quality [(0 : ℝ), 0, 0, 0, 0, 5] recipe7 <
    compute_quality [(3 : ℝ), 1, 1, 0, 0, 0] recipe7 := by
  rw [compute_quality, compute_quality]
  rw [if_neg (by norm_num), if_neg (by norm_num)]
  rw [Real.exp_lt_exp]
  have h1 : (((List.range NUM_INGREDIENTS).map (fun j =>
      (getiR ([(0 : ℝ), 0, 0, 0, 0, 5].map
        (fun p => p / [(0 : ℝ), 0, 0, 0, 0, 5].sum)) j -
       getiR recipe7 j) ^ 2)).sum) = 1.1168 := by
    norm_num [NUM_INGREDIENTS, List.range_succ, getiR, recipe7]
  have h2 : (((List.range NUM_INGREDIENTS).map (fun j =>
      (getiR ([(3 : ℝ), 1, 1, 0, 0, 0].map
        (fun p => p / [(3 : ℝ), 1, 1, 0, 0, 0].sum)) j -
       getiR recipe7 j) ^ 2)).sum) = 0.1168 := by
    norm_num [NUM_INGREDIENTS, List.range_succ, getiR, recipe7]
  rw [h1, h2]
  have hs : Real.sqrt 0.1168 < Real.sqrt 1.1168 :=
    Real.sqrt_lt_sqrt (by norm_num) (by norm_num)
  nlinarith [Real.sqrt_nonneg (0.1168 : ℝ), Real.sqrt_nonneg (1.1168 : ℝ)]

lemma contrib7 : compute_contribution [allocA, allocB] recipe7 = some [1, 0] := by
  simp only [compute_contribution, allocA, allocB, List.map_cons, List.map_nil]
  norm_num [NUM_INGREDIENTS, List.range_succ, getiZ, getiR, List.foldl_cons,
    List.foldl_nil]
  rw [if_neg (ne_of_lt quality_lt7)]
  have h01 : compute_quality [(3 : ℝ), 1, 1, 0, 0, 5] recipe7 -
      compute_quality [(3 : ℝ), 1, 1, 0, 0, 0] recipe7 <
      compute_quality [(3 : ℝ), 1, 1, 0, 0, 5] recipe7 -
      compute_quality [(0 : ℝ), 0, 0, 0, 0, 5] recipe7 := by
    have hq := quality_lt7
    linarith
  rw [inf_eq_right.mpr (le_of_lt h01), sup_eq_left.mpr (le_of_lt h01)]
  rw [div_self (sub_ne_zero_of_ne (ne_of_gt h01)), sub_self, zero_div]

/-- The example scenario's game state: two players with fresh balances. -/
noncomputable def g7 : Game :=
  { player_names := ["A", "B"], player_scores := fun _ => STARTING_SCORE,
    current_round := 0, recipe_main := recipe7, recipe_final := recipe7,
    history := [], eliminated := [] }

/-- The example scenario's submitted allocations. -/
def c7 : String → Option (List ℤ) := fun p =>
  if p = "A" then some allocA else if p = "B" then some allocB else none

lemma hpart7 : participants g7 c7 = ["A", "B"] := by decide

lemma hrecipe7 :
    current_recipe { g7 with current_round := g7.current_round + 1 } =
      recipe7 := rfl

lemma hmap7 : (participants g7 c7).map (fun p => (c7 p).getD []) =
    [allocA, allocB] := by
  rw [hpart7]
  rfl

lemma hcs7 : compute_scores ALPHA BETA [allocA, allocB] recipe7 =
    some (compute_quality [(3 : ℝ), 1, 1, 0, 0, 5] recipe7,
      [1, 1], [1, 0], [(13 : ℝ)/10, 3/10]) := by
  simp only [compute_scores]
  rw [contrib7, uniq7]
  norm_num [NUM_INGREDIENTS, ALPHA, BETA, List.range_succ, getiZ, getiR,
    Real.rpow_one, allocA, allocB]

/-- Counterexample for claim C7 as stated: in the two-player example scenario
both uniqueness values are 1, so A's uniqueness is not higher than B's. -/
theorem scenario_uniqueness_not_higher :
    compute_uniqueness [allocA, allocB] = [1, 1] ∧
    ¬ (getiR (compute_uniqueness [allocA, allocB]) 1 <
       getiR (compute_uniqueness [allocA, allocB]) 0) := by
  refine ⟨uniq7, ?_⟩
  rw [uniq7]
  norm_num [getiR]

/-- Claim C7 (amended): in the example scenario A's and B's uniqueness are
equal (both 1, the symmetric two-player case), A's contribution is strictly
higher than B's (1 against 0), and after settlement A's net is positive and
B's negative. -/
lemma hval7 : ∀ p ∈ participants g7 c7, validAlloc ((c7 p).getD []) := by
  rw [hpart7]
  decide

lemma hcs7x : compute_scores ALPHA BETA
    ((participants g7 c7).map (fun p => (c7 p).getD []))
    (current_recipe { g7 with current_round := g7.current_round + 1 }) =
    some (compute_quality [(3 : ℝ), 1, 1, 0, 0, 5] recipe7,
      [1, 1], [1, 0], [(13 : ℝ)/10, 3/10]) := by
  rw [hmap7, hrecipe7]
  exact hcs7

lemma hplay7 : (play_round ALPHA BETA g7 c7).2 = Except.ok
    (settleResult { g7 with current_round := g7.current_round + 1 }
      (participants g7 c7) (fun p => (c7 p).getD [])
      (compute_quality [(3 : ℝ), 1, 1, 0, 0, 5] recipe7)
      [1, 1] [1, 0] [(13 : ℝ)/10, 3/10]) := by
  rw [play_round_def, if_neg (not_not_intro hval7), settle_ok_eq hcs7x]

theorem scenario_two_player_amended :
    compute_uniqueness [allocA, allocB] = [1, 1] ∧
    compute_contribution [allocA, allocB] recipe7 = some [1, 0] ∧
    ∃ r, (play_round ALPHA BETA g7 c7).2 = Except.ok r ∧
      r.players.map Prod.fst = ["A", "B"] ∧
      (∀ x ∈ r.players, x.1 = "A" → x.2.contribution = 1 ∧ 0 < x.2.net) ∧
      (∀ x ∈ r.players, x.1 = "B" → x.2.contribution = 0 ∧ x.2.net < 0) := by
  refine ⟨uniq7, contrib7, ?_⟩
  refine ⟨_, hplay7, ?_, ?_, ?_⟩
  · show ((settleDist _ _ _ _ _ _).2.2.map Prod.fst) = _
    simp only [settleDist]
    rw [distribute_recs_fst]
    exact hpart7
  · intro x hx h1
    simp only [settleResult, settleDist, hpart7, distribute, List.mem_cons,
      List.not_mem_nil, or_false] at hx
    rcases hx with rfl | rfl
    · constructor
      · norm_num [getiR]
      · norm_num [payoutAt, getiR, ANTE, List.length_cons, List.length_nil]
    · simp at h1
  · intro x hx h1
    simp only [settleResult, settleDist, hpart7, distribute, List.mem_cons,
      List.not_mem_nil, or_false] at hx
    rcases hx with rfl | rfl
    · simp at h1
    · constructor
      · norm_num [getiR]
      · norm_num [payoutAt, getiR, ANTE, List.length_cons, List.length_nil]

/-!
## Decision engine and game loop (source lines 399-501 and 571-616)

`ai_strategy` draws randomness from a per-player pseudorandom stream,
modelled as an abstract infinite sequence of reals with a position (`Rng`):
each `prng.random()` or `prng.gauss(0, 0.01)` call reads the value at the
current position and advances it. The two recipes (drawn once at start-up
from the module-level seeded RNG) are parameters of the run.
-/

/-- A per-player pseudorandom stream (`random.Random(seed)`) with its
position. -/
structure Rng where
  seq : ℕ → ℝ
  pos : ℕ

/-- Draw the next value from the stream and advance. -/
def Rng.next (r : Rng) : ℝ × Rng := (r.seq r.pos, ⟨r.seq, r.pos + 1⟩)

open Classical in
/-- Python `max(range(n), key = key)`: the first index attaining the maximum
key (the running best is replaced only on strict improvement). -/
noncomputable def argmaxRange (key : ℕ → ℝ) (n : ℕ) : ℕ :=
  (List.range n).foldl (fun best j => if key best < key j then j else best) 0

/-- One unit-placing step of `optimal_allocation` (source lines 408-413),
with the remaining unit count as fuel. -/
noncomputable def optStep (recipe : List ℝ) : ℕ → List ℤ → List ℤ
  | 0, alloc => alloc
  | fuel + 1, alloc =>
    let current_total : ℝ := ((alloc.map (fun u => (u : ℝ))).sum) + 1
    let best_j := argmaxRange
      (fun j => getiR recipe j - ((getiZ alloc j : ℤ) : ℝ) / current_total)
      NUM_INGREDIENTS
    optStep recipe fuel (alloc.set best_j (getiZ alloc best_j + 1))

/-- `optimal_allocation(recipe)` (source lines 399-414): greedily place the
5 units (`UNITS_PER_PLAYER`). -/
noncomputable def optimal_allocation (recipe : List ℝ) : List ℤ :=
  optStep recipe 5 (List.replicate NUM_INGREDIENTS 0)

/-- The recursive generator `_gen` behind `ALL_ALLOCS` (source lines
421-428): all ways to spread `remaining` units over `slots + 1` ingredient
positions, in the same enumeration order. -/
def genAllocs : ℕ → ℕ → List (List ℤ)
  | remaining, 0 => [[(remaining : ℤ)]]
  | remaining, slots + 1 =>
    (List.range (remaining + 1)).flatMap (fun u =>
      (genAllocs (remaining - u) slots).map (fun rest => (u : ℤ) :: rest))

/-- `ALL_ALLOCS` (source lines 420-428): every 5-unit allocation over the 6
ingredients. -/
def ALL_ALLOCS : List (List ℤ) := genAllocs 5 (NUM_INGREDIENTS - 1)

open Classical in
/-- `ai_strategy(name, rnd, game, prng)` (source lines 431-501): predict the
opponents from the previous round (one coin flip per remembered opponent),
then search `ALL_ALLOCS` for the allocation with the best noisy expected
score (one Gaussian draw per candidate). Returns the chosen allocation and
the advanced stream. -/
noncomputable def ai_strategy (alpha beta : ℝ) (name : String) (game : Game)
    (prng : Rng) : List ℤ × Rng :=
  let recipe := current_recipe game
  let n_active := (active_players game).length
  let step1 :=
    match game.history.getLast? with
    | none => (([] : List (List ℤ)), prng)
    | some last =>
      last.players.foldl (fun (acc : List (List ℤ) × Rng) (pp : String × PlayerRound) =>
        if pp.1 ≠ name ∧ pp.1 ∉ game.eliminated then
          let draw := acc.2.next
          if draw.1 < 0.5 then (acc.1 ++ [pp.2.ingredients], draw.2)
          else (acc.1 ++ [optimal_allocation recipe], draw.2)
        else acc) ([], prng)
  let prng1 := step1.2
  let estimated1 := step1.1 ++
    List.replicate (n_active - 1 - step1.1.length) (optimal_allocation recipe)
  let estimated_others := estimated1.take (n_active - 1)
  let search := ALL_ALLOCS.foldl (fun (acc : (List ℤ × ℝ) × Rng) alloc =>
    let all_contribs := alloc :: estimated_others
    let n := all_contribs.length
    let avg := (List.range NUM_INGREDIENTS).map
      (fun j => (all_contribs.map (fun c => ((getiZ c j : ℤ) : ℝ))).sum / (n : ℝ))
    let my_dist := Real.sqrt (((List.range NUM_INGREDIENTS).map
      (fun j => (((getiZ alloc j : ℤ) : ℝ) - getiR avg j) ^ 2)).sum)
    let all_dists := all_contribs.map (fun c => Real.sqrt
      (((List.range NUM_INGREDIENTS).map
        (fun j => (((getiZ c j : ℤ) : ℝ) - getiR avg j) ^ 2)).sum))
    let max_d := pymaxD all_dists 1
    let my_uniq := if 0 < max_d then my_dist / max_d else 0
    let pool := (List.range NUM_INGREDIENTS).map
      (fun j => (all_contribs.map (fun c => ((getiZ c j : ℤ) : ℝ))).sum)
    let q_all := compute_quality pool recipe
    let pool_without := (List.range NUM_INGREDIENTS).map
      (fun j => getiR pool j - ((getiZ alloc j : ℤ) : ℝ))
    let q_without := compute_quality pool_without recipe
    let my_contrib_raw := q_all - q_without
    let my_contrib := max 0 (min 1 (0.5 + my_contrib_raw * 5))
    let expected0 := my_uniq ^ alpha * (beta + my_contrib)
    let draw := acc.2.next
    let expected := expected0 + draw.1
    if acc.1.2 < expected then ((alloc, expected), draw.2) else (acc.1, draw.2))
    ((optimal_allocation recipe, -999), prng1)
  (search.1.1, search.2)

/-- The game state built at start-up (source lines 582 and 300-307), with
the two recipes passed in. -/
noncomputable def initial_game (names : List String)
    (recipeMain recipeFinal : List ℝ) : Game :=
  { player_names := names, player_scores := fun _ => STARTING_SCORE,
    current_round := 0, recipe_main := recipeMain,
    recipe_final := recipeFinal, history := [], eliminated := [] }

instance (g : Game) : Decidable (is_over g) := by
  unfold is_over
  infer_instance

/-- The main game loop (source lines 606-616): collect every active player's
move through that player's private stream, settle, stop on `is_over` or when
nobody is left; fuel is the round count. -/
noncomputable def gameLoop (alpha beta : ℝ) :
    ℕ → Game → (String → Rng) → Game × (String → Rng)
  | 0, g, rngs => (g, rngs)
  | fuel + 1, g, rngs =>
    let active := active_players g
    let step := active.foldl
      (fun (acc : (String → Option (List ℤ)) × (String → Rng)) p =>
        let res := ai_strategy alpha beta p g (acc.2 p)
        (Function.update acc.1 p (some res.1), Function.update acc.2 p res.2))
      ((fun _ => none), rngs)
    if active = [] then (g, rngs)
    else
      let g2 := (play_round alpha beta g step.1).1
      if is_over g2 then (g2, step.2)
      else gameLoop alpha beta fuel g2 step.2

/-- A full game run (source lines 571-616) as a function of the player list,
the two recipes, and the per-player seeded streams (`player_rngs`). -/
noncomputable def runGame (alpha beta : ℝ) (names : List String)
    (recipeMain recipeFinal : List ℝ) (seeds : String → Rng) : Game :=
  (gameLoop alpha beta NUM_ROUNDS (initial_game names recipeMain recipeFinal)
    seeds).1

/-- Claim C6: with a fixed random stream per player and fixed alpha and beta
(and the recipes those fixed seeds produce), two complete runs yield
identical histories — the run is a pure function of the seeds and
parameters, with no shared randomness across players. -/
theorem deterministic_runs (alpha beta : ℝ) (names : List String)
    (recipeMain recipeFinal : List ℝ) (s1 s2 : String → Rng) (h : s1 = s2) :
    (runGame alpha beta names recipeMain recipeFinal s1).history =
      (runGame alpha beta names recipeMain recipeFinal s2).history := by
  rw [h]

/-- The all-zero streams used by the determinism witness. -/
noncomputable def seedsW : String → Rng := fun _ => ⟨fun _ => 0, 0⟩

/-- Witness for `deterministic_runs` at a concrete seed assignment. -/
theorem deterministic_runs_witness :
    (runGame ALPHA BETA ["A", "B"] recipe7 recipe7 seedsW).history =
      (runGame ALPHA BETA ["A", "B"] recipe7 recipe7 seedsW).history :=
  deterministic_runs ALPHA BETA ["A", "B"] recipe7 recipe7 seedsW seedsW rfl

/-!
## Witness configurations

Concrete games and submissions instantiating the round-level theorems.
-/

/-- Witness for `settlement_conservation`: the concrete two-player scenario
settles successfully and conserves the total balance. -/
theorem settlement_conservation_witness :
    g7.player_names.Nodup ∧
    sumOver g7.player_names ((play_round ALPHA BETA g7 c7).1.player_scores) =
      sumOver g7.player_names g7.player_scores :=
  ⟨by decide, (settlement_conservation ALPHA BETA g7 c7 (by decide) _ hplay7).2.2⟩

/-- A two-player game whose players both submit the identical allocation. -/
noncomputable def gw2 : Game :=
  { player_names := ["A", "B"], player_scores := fun _ => STARTING_SCORE,
    current_round := 0, recipe_main := recipe7, recipe_final := recipe7,
    history := [], eliminated := [] }

/-- Both players submit `[1,1,1,1,1,0]`. -/
def cw2 : String → Option (List ℤ) := fun p =>
  if p = "A" ∨ p = "B" then some [1, 1, 1, 1, 1, 0] else none

/-- Witness for `identical_allocations_flat_split` at the concrete
two-player identical-allocation game. -/
theorem identical_allocations_flat_split_witness :
    (1 : ℝ) ≠ 0 ∧ 2 ≤ (participants gw2 cw2).length ∧
    compute_uniqueness ((participants gw2 cw2).map (fun p => (cw2 p).getD [])) =
      List.replicate (participants gw2 cw2).length 0 :=
  ⟨by norm_num, by decide,
    (identical_allocations_flat_split 1 BETA gw2 cw2 [1, 1, 1, 1, 1, 0]
      (by norm_num) (by decide) (by decide) (by decide)).1⟩

/-- A one-player game submitting an allocation of 6 units (invalid sum). -/
noncomputable def gw4 : Game :=
  { player_names := ["V"], player_scores := fun _ => STARTING_SCORE,
    current_round := 0, recipe_main := recipe7, recipe_final := recipe7,
    history := [], eliminated := [] }

/-- The invalid submission for `gw4`: six units instead of five. -/
def cw4 : String → Option (List ℤ) := fun p =>
  if p = "V" then some [6, 0, 0, 0, 0, 0] else none

/-- Witness for `validation_error_iff`: the 6-unit submission raises a
validation error and leaves all balances unchanged. -/
theorem validation_error_iff_witness :
    (play_round ALPHA BETA gw4 cw4).2 = Except.error RoundError.validation ∧
    (play_round ALPHA BETA gw4 cw4).1.player_scores = gw4.player_scores := by
  have h := validation_error_iff ALPHA BETA gw4 cw4
  have herr : (play_round ALPHA BETA gw4 cw4).2 =
      Except.error RoundError.validation :=
    h.1.mpr ⟨"V", by decide, by decide⟩
  exact ⟨herr, (h.2 herr).1⟩

/-- A one-player game submitting an allocation with a negative entry. -/
noncomputable def gw9 : Game :=
  { player_names := ["W"], player_scores := fun _ => STARTING_SCORE,
    current_round := 0, recipe_main := recipe7, recipe_final := recipe7,
    history := [], eliminated := [] }

/-- The invalid submission for `gw9`: a negative entry (sum still 5). -/
def cw9 : String → Option (List ℤ) := fun p =>
  if p = "W" then some [-1, 1, 1, 1, 1, 2] else none

/-- Witness for `validation_error_partial_state`: after the failed round the
balances are untouched but the round counter has advanced. -/
theorem validation_error_partial_state_witness :
    (play_round ALPHA BETA gw9 cw9).1.player_scores = gw9.player_scores ∧
    (play_round ALPHA BETA gw9 cw9).1.current_round = gw9.current_round + 1 := by
  have herr : (play_round ALPHA BETA gw9 cw9).2 =
      Except.error RoundError.validation :=
    (play_round_validation_iff ALPHA BETA gw9 cw9).mpr (by decide)
  have h := validation_error_partial_state ALPHA BETA gw9 cw9 herr
  exact ⟨h.1, h.2.2.2.1⟩

/-- A game with an eliminated player and an unknown id in the submissions. -/
noncomputable def gw10 : Game :=
  { player_names := ["A", "B"], player_scores := fun _ => STARTING_SCORE,
    current_round := 0, recipe_main := recipe7, recipe_final := recipe7,
    history := [], eliminated := ["B"] }

/-- Submissions for `gw10`: the eliminated "B" and the unknown "Z" submit,
but neither is a participant. -/
def cw10 : String → Option (List ℤ) := fun p =>
  if p = "A" ∨ p = "B" ∨ p = "Z" then some [5, 0, 0, 0, 0, 0] else none

/-- Witness for `participants_characterization`: the eliminated "B" is not a
participant despite submitting, and the unknown "Z" keeps its balance. -/
theorem participants_characterization_witness :
    ("B" ∈ participants gw10 cw10 ↔
      "B" ∈ gw10.player_names ∧ "B" ∉ gw10.eliminated ∧ (cw10 "B").isSome) ∧
    (play_round ALPHA BETA gw10 cw10).1.player_scores "Z" =
      gw10.player_scores "Z" := by
  have h := participants_characterization ALPHA BETA gw10 cw10
  exact ⟨h.1 "B", h.2 "Z" (by decide)⟩

/-- A game whose player "E" is already eliminated. -/
noncomputable def gw8 : Game :=
  { player_names := ["A", "E"], player_scores := fun _ => STARTING_SCORE,
    current_round := 0, recipe_main := recipe7, recipe_final := recipe7,
    history := [], eliminated := ["E"] }

/-- A submission map for `gw8`. -/
def cw8 : String → Option (List ℤ) := fun p =>
  if p = "A" ∨ p = "E" then some [5, 0, 0, 0, 0, 0] else none

/-- Witness for `elimination_monotone`: across one further settlement the
eliminated "E" stays eliminated with an unchanged balance. -/
theorem elimination_monotone_witness :
    "E" ∈ (runRounds ALPHA BETA gw8 [cw8]).eliminated ∧
    (runRounds ALPHA BETA gw8 [cw8]).player_scores "E" =
      gw8.player_scores "E" := by
  have h := elimination_monotone ALPHA BETA gw8 [cw8] "E" (by decide)
  exact ⟨h.1, h.2.1⟩
